import Mathlib

/-!
Verification of the GitHub release-log generator core.

Strings manipulated by the Python utility code are embedded as `List Char`;
each Python string primitive used by the code (`rstrip`, `startswith`,
`replace` with an empty replacement, `split`, `in`, `endswith`, `lower`)
is given an executable Lean counterpart, and the functions of
`utils.py`, `mcp_server.py` and `crew.py` are translated on top of them.
-/

/-- Python `s.rstrip(c)` for a single strip character: drop every trailing
occurrence of `c`. -/
def pyRstrip (c : Char) (s : List Char) : List Char :=
  ((s.reverse).dropWhile (fun x => x = c)).reverse

/-- Python `pat in s` (substring containment test): some position of `s`
starts with `pat`. -/
def hasOccur (pat : List Char) : List Char → Bool
  | [] => pat.isPrefixOf []
  | c :: cs => pat.isPrefixOf (c :: cs) || hasOccur pat cs

/-- Worker for `pyReplaceDel`, structurally recursive on a fuel argument so
that it evaluates by kernel reduction.  Scans left to right; on a match of
`pat` it skips `pat.length` characters (Python replaces non-overlapping
occurrences left to right, and the replacement here is the empty string). -/
def pyReplaceDelAux (pat : List Char) : Nat → List Char → List Char
  | _, [] => []
  | 0, s => s
  | fuel + 1, c :: cs =>
    if pat ≠ [] ∧ pat.isPrefixOf (c :: cs) then
      pyReplaceDelAux pat fuel (List.drop pat.length (c :: cs))
    else
      c :: pyReplaceDelAux pat fuel cs

/-- Python `s.replace(pat, '')` for a non-empty `pat`: delete every
(non-overlapping, leftmost-first) occurrence of `pat` in `s`. -/
def pyReplaceDel (pat s : List Char) : List Char :=
  pyReplaceDelAux pat s.length s

/-- Python `s.split(sep)` for a single-character separator.  Always returns
at least one piece; adjacent separators yield empty pieces. -/
def pySplitChar (sep : Char) : List Char → List (List Char)
  | [] => [[]]
  | c :: cs =>
    if c = sep then
      [] :: pySplitChar sep cs
    else
      match pySplitChar sep cs with
      | [] => [[c]]
      | h :: t => (c :: h) :: t

/-- The hexadecimal alphabet of `GitHubUtils.validate_commit_sha`. -/
def hexDigits : List Char := "0123456789abcdefABCDEF".data

/-- `GitHubUtils.validate_commit_sha` from `utils.py`: reject the empty
string, reject lengths outside `[4, 40]`, then require every character to
be hexadecimal. -/
def validate_commit_sha (sha : List Char) : Bool :=
  if sha = [] then false
  else if sha.length < 4 ∨ 40 < sha.length then false
  else sha.all (fun c => hexDigits.contains c)

/-- `GitHubUtils.shorten_sha` from `utils.py`:
`sha[:length] if len(sha) > length else sha`. -/
def shorten_sha (sha : List Char) (len : Nat) : List Char :=
  if len < sha.length then sha.take len else sha

/-- C8: `validate_commit_sha` returns `True` exactly when the input has
length between 4 and 40 inclusive and every character is a hexadecimal
digit; in particular the empty string (length 0) and strings longer than
40 are rejected. -/
theorem validate_commit_sha_iff (sha : List Char) :
    validate_commit_sha sha = true ↔
      4 ≤ sha.length ∧ sha.length ≤ 40 ∧ ∀ c ∈ sha, c ∈ hexDigits := by
  unfold validate_commit_sha
  split_ifs with h1 h2
  · subst h1
    simp
  · simp only [Bool.false_eq_true, false_iff]
    rintro ⟨ha, hb, -⟩
    omega
  · rw [List.all_eq_true]
    constructor
    · intro h
      refine ⟨by omega, by omega, fun c hc => ?_⟩
      have := h c hc
      rwa [List.contains, List.elem_iff] at this
    · rintro ⟨-, -, h⟩
      intro c hc
      rw [List.contains, List.elem_iff]
      exact h c hc

/-- C8 witness: a concrete 4-character hexadecimal string is accepted. -/
theorem validate_commit_sha_iff_witness :
    validate_commit_sha ['a', 'b', 'c', '1'] = true :=
  (validate_commit_sha_iff ['a', 'b', 'c', '1']).mpr
    ⟨by decide, by decide, by decide⟩

/-- C9: the guarded form `sha[:n] if len(sha) > n else sha` used by
`shorten_sha` is extensionally the plain prefix `sha[:n]`; the conditional
never changes the result. -/
theorem shorten_sha_eq_take (sha : List Char) (n : Nat) :
    shorten_sha sha n = sha.take n := by
  unfold shorten_sha
  split_ifs with h
  · rfl
  · exact (List.take_of_length_le (by omega)).symm

/-- Shorthand: the character list of a string literal. -/
def sl (s : String) : List Char := s.data

/-- A record of the `file_changes` list consumed by
`ReleaseLogUtils.categorize_file_changes`: a Python dict whose
`'file_path'` key may be absent (`change.get('file_path', '')`). -/
structure FileChangeRec where
  file_path : Option (List Char)
deriving DecidableEq

/-- The path the classifier works on: `change.get('file_path', '')`. -/
def pathOf (c : FileChangeRec) : List Char := c.file_path.getD []

/-- The substring markers of the first (tests) rule of
`categorize_file_changes`. -/
def testMarkers : List (List Char) :=
  [sl "/test/", sl "_test.", sl ".test.", sl "/tests/", sl "spec."]

/-- Documentation extensions of `categorize_file_changes`. -/
def docExts : List (List Char) :=
  [sl ".md", sl ".txt", sl ".rst", sl ".adoc"]

/-- Dependency-manifest patterns of `categorize_file_changes` (checked by
Python substring containment `pattern in file_path`). -/
def depManifests : List (List Char) :=
  [sl "package.json", sl "requirements.txt", sl "Gemfile", sl "pom.xml",
   sl "build.gradle"]

/-- Configuration extensions of `categorize_file_changes`. -/
def configExts : List (List Char) :=
  [sl ".json", sl ".yaml", sl ".yml", sl ".toml", sl ".ini", sl ".env"]

/-- Source-code extensions of `categorize_file_changes`. -/
def sourceExts : List (List Char) :=
  [sl ".py", sl ".js", sl ".ts", sl ".java", sl ".cpp", sl ".c", sl ".go",
   sl ".rb", sl ".php", sl ".rs", sl ".swift"]

/-- The tests rule of `categorize_file_changes`, clause for clause:
`any(pattern in file_path for ...) or file_path.startswith('test/') or
file_path.startswith('tests/') or '/test/' in file_path or
'/tests/' in file_path`. -/
def testsCond (p : List Char) : Bool :=
  testMarkers.any (fun pat => hasOccur pat p) ||
  (sl "test/").isPrefixOf p || (sl "tests/").isPrefixOf p ||
  hasOccur (sl "/test/") p || hasOccur (sl "/tests/") p

/-- The documentation rule: `any(file_path.endswith(ext) for ...)`. -/
def docsCond (p : List Char) : Bool := docExts.any fun e => e.isSuffixOf p

/-- The dependencies rule: `any(pattern in file_path for ...)` —
substring containment, not filename equality. -/
def depsCond (p : List Char) : Bool := depManifests.any fun m => hasOccur m p

/-- The config rule: `any(file_path.endswith(ext) for ...)`. -/
def configCond (p : List Char) : Bool := configExts.any fun e => e.isSuffixOf p

/-- The source-code rule: `any(file_path.endswith(ext) for ...)`. -/
def sourceCond (p : List Char) : Bool := sourceExts.any fun e => e.isSuffixOf p

/-- The six buckets of the `categories` dict of
`categorize_file_changes`, fields in the dict-literal (insertion) order. -/
structure Categories where
  source_code : List (List Char)
  tests : List (List Char)
  documentation : List (List Char)
  config : List (List Char)
  dependencies : List (List Char)
  other : List (List Char)
deriving DecidableEq

/-- `ReleaseLogUtils.categorize_file_changes` from `utils.py`: first-match
classification of each change's path into one of the six buckets, in the
source's `if/elif` order (tests, documentation, dependencies, config,
source_code, other); buckets keep input order. -/
def categorize_file_changes : List FileChangeRec → Categories
  | [] => ⟨[], [], [], [], [], []⟩
  | c :: rest =>
    let cats := categorize_file_changes rest
    let p := pathOf c
    if testsCond p then { cats with tests := p :: cats.tests }
    else if docsCond p then { cats with documentation := p :: cats.documentation }
    else if depsCond p then { cats with dependencies := p :: cats.dependencies }
    else if configCond p then { cats with config := p :: cats.config }
    else if sourceCond p then { cats with source_code := p :: cats.source_code }
    else { cats with other := p :: cats.other }

/-- The returned dict itself, as an association list in Python dict
(insertion) order: the keys are fixed by the dict literal at the top of
`categorize_file_changes` and appends never add keys. -/
def categorizeDict (changes : List FileChangeRec) : List (String × List (List Char)) :=
  let cats := categorize_file_changes changes
  [("source_code", cats.source_code), ("tests", cats.tests),
   ("documentation", cats.documentation), ("config", cats.config),
   ("dependencies", cats.dependencies), ("other", cats.other)]

/-- The last path component of a path (everything after the final `/`),
used to state the filename reading of the dependencies rule. -/
def filenameOf (p : List Char) : List Char :=
  (p.reverse.takeWhile (fun c => ¬ c = '/')).reverse

/-- C10: for every input, the key set of the returned mapping is exactly
the six categories, in dict order; empty buckets are present, never
omitted. -/
theorem categorizeDict_keys (changes : List FileChangeRec) :
    (categorizeDict changes).map Prod.fst =
      ["source_code", "tests", "documentation", "config", "dependencies",
       "other"] := rfl

/-- C4: categorization partitions the input paths — the multiset union of
the six buckets equals the multiset of input paths; nothing is dropped,
nothing duplicated. -/
theorem categorize_file_changes_partition (changes : List FileChangeRec) :
    ((categorize_file_changes changes).source_code : Multiset (List Char)) +
      ((categorize_file_changes changes).tests : Multiset (List Char)) +
      ((categorize_file_changes changes).documentation : Multiset (List Char)) +
      ((categorize_file_changes changes).config : Multiset (List Char)) +
      ((categorize_file_changes changes).dependencies : Multiset (List Char)) +
      ((categorize_file_changes changes).other : Multiset (List Char)) =
      (changes.map pathOf : Multiset (List Char)) := by
  induction changes with
  | nil => rfl
  | cons c rest ih =>
    simp only [categorize_file_changes, List.map_cons]
    split_ifs <;>
      simp only [← Multiset.cons_coe, Multiset.cons_add, Multiset.add_cons] <;>
      rw [ih]

/-- C6 counterexample: `mypackage.json` contains `package.json` as a
substring, so the code files it under `dependencies`, although its
filename is not one of the five known manifests. -/
theorem categorize_dependencies_filename_cex :
    (categorize_file_changes [⟨some (sl "mypackage.json")⟩]).dependencies =
        [sl "mypackage.json"] ∧
      filenameOf (sl "mypackage.json") ∉ depManifests := by decide

/-- C6 (amended): a path not classified as tests or documentation lands in
`dependencies` iff the path contains one of the known manifest names as a
substring (containment, not filename equality): the bucket is exactly the
input paths passing `¬tests`, `¬docs`, and the substring test. -/
theorem categorize_dependencies_iff (changes : List FileChangeRec) :
    (categorize_file_changes changes).dependencies =
      (changes.map pathOf).filter
        (fun p => !testsCond p && !docsCond p && depsCond p) := by
  induction changes with
  | nil => rfl
  | cons c rest ih =>
    simp only [categorize_file_changes, List.map_cons, List.filter_cons]
    split_ifs <;> simp_all

/-- A record of the `commits_info` list consumed by
`ReleaseLogUtils.generate_version_suggestion`: a Python dict whose
`'message'` key may be absent (`commit.get('message', '')`). -/
structure CommitRec where
  message : Option (List Char)
deriving DecidableEq

/-- The message the scanner works on: `commit.get('message', '')`. -/
def msgOf (c : CommitRec) : List Char := c.message.getD []

/-- ASCII case folding, the fragment of Python `str.lower()` exercised by
the keyword scan (all keywords and markers are ASCII). -/
def pyLowerChar (c : Char) : Char :=
  if 'A' ≤ c ∧ c ≤ 'Z' then Char.ofNat (c.toNat + 32) else c

/-- Python `s.lower()` on ASCII text. -/
def pyLower (s : List Char) : List Char := s.map pyLowerChar

/-- `breaking_keywords` of `generate_version_suggestion`. -/
def breakingKeywords : List (List Char) :=
  [sl "BREAKING", sl "breaking change", sl "breaking:", sl "major:"]

/-- `feature_keywords` of `generate_version_suggestion`. -/
def featureKeywords : List (List Char) :=
  [sl "feat:", sl "feature:", sl "add:", sl "new:"]

/-- One commit matches a breaking marker:
`any(keyword.lower() in message for keyword in breaking_keywords)` with
`message = commit.get('message', '').lower()`. -/
def commitBreaking (c : CommitRec) : Bool :=
  breakingKeywords.any fun k => hasOccur (pyLower k) (pyLower (msgOf c))

/-- One commit matches a feature marker. -/
def commitFeature (c : CommitRec) : Bool :=
  featureKeywords.any fun k => hasOccur (pyLower k) (pyLower (msgOf c))

/-- The body of the commit loop of `generate_version_suggestion`: the
`elif` skips the feature check on a commit that already matched a
breaking marker. -/
def scanStep (acc : Bool × Bool) (commit : CommitRec) : Bool × Bool :=
  if commitBreaking commit then (true, acc.2)
  else if commitFeature commit then (acc.1, true)
  else acc

/-- The commit loop: `(has_breaking, has_features)` after scanning all of
`commits_info` starting from `(False, False)`. -/
def scanCommits (commits : List CommitRec) : Bool × Bool :=
  commits.foldl scanStep (false, false)

/-- `ReleaseLogUtils.generate_version_suggestion` from `utils.py`. -/
def generate_version_suggestion (file_changes : List FileChangeRec)
    (commits_info : List CommitRec) : String :=
  let hb := (scanCommits commits_info).1
  let hf := (scanCommits commits_info).2
  let categories := categorize_file_changes file_changes
  let has_code_changes := 0 < categories.source_code.length
  if hb = true then "major"
  else if hf = true ∨ has_code_changes then "minor"
  else "patch"

/-- The version-bump rule as the spec words it: two independent scans
(breaking anywhere → `major`; else feature anywhere or a non-empty
`source_code` bucket → `minor`; else `patch`). -/
def versionSuggestionSpec (file_changes : List FileChangeRec)
    (commits_info : List CommitRec) : String :=
  if commits_info.any commitBreaking = true then "major"
  else if commits_info.any commitFeature = true ∨
      (categorize_file_changes file_changes).source_code ≠ [] then "minor"
  else "patch"

/-- Characterization of the commit loop from any start state: the first
component records a breaking match anywhere; the second records a feature
match on a commit that did not itself match a breaking marker. -/
theorem foldl_scanStep (commits : List CommitRec) (hb hf : Bool) :
    commits.foldl scanStep (hb, hf) =
      (hb || commits.any commitBreaking,
       hf || commits.any fun c => commitFeature c && !commitBreaking c) := by
  induction commits generalizing hb hf with
  | nil => simp
  | cons c rest ih =>
    simp only [List.foldl_cons, List.any_cons, scanStep]
    by_cases h1 : commitBreaking c
    · simp [h1, ih, Bool.or_assoc]
    · by_cases h2 : commitFeature c <;>
        simp [h1, h2, ih, Bool.or_assoc]

/-- If no commit of the list matches a breaking marker, the guarded
feature scan of the loop agrees with the plain feature scan. -/
theorem any_feature_of_no_breaking (l : List CommitRec)
    (h : ∀ c ∈ l, commitBreaking c = false) :
    (l.any fun c => commitFeature c && !commitBreaking c) =
      l.any commitFeature := by
  induction l with
  | nil => rfl
  | cons c rest ih =>
    simp only [List.any_cons, h c (List.mem_cons_self c rest),
      Bool.not_false, Bool.and_true]
    rw [ih (fun d hd => h d (List.mem_cons_of_mem c hd))]

/-- C3: the `elif` loop plus final tie-break of
`generate_version_suggestion` computes exactly the independent-passes
rule `major > minor > patch`: a breaking marker anywhere gives `major`
regardless of feature markers; otherwise a feature marker or a non-empty
`source_code` bucket gives `minor`; otherwise `patch`. -/
theorem generate_version_suggestion_eq_spec (fc : List FileChangeRec)
    (ci : List CommitRec) :
    generate_version_suggestion fc ci = versionSuggestionSpec fc ci := by
  unfold generate_version_suggestion versionSuggestionSpec scanCommits
  rw [foldl_scanStep]
  simp only [Bool.false_or, List.length_pos]
  by_cases hb : ci.any commitBreaking = true
  · simp [hb]
  · simp only [Bool.not_eq_true] at hb
    have hall : ∀ c ∈ ci, commitBreaking c = false := by
      intro c hc
      have := List.any_eq_false.mp hb c hc
      simpa using this
    rw [any_feature_of_no_breaking ci hall]

/-- A change whose path matches none of the five classification rules
lands in the `other` bucket (the final `else`). -/
theorem mem_other_of_unmatched (fc : List FileChangeRec) (c : FileChangeRec)
    (hc : c ∈ fc)
    (h1 : testsCond (pathOf c) = false) (h2 : docsCond (pathOf c) = false)
    (h3 : depsCond (pathOf c) = false) (h4 : configCond (pathOf c) = false)
    (h5 : sourceCond (pathOf c) = false) :
    pathOf c ∈ (categorize_file_changes fc).other := by
  induction fc with
  | nil => cases hc
  | cons d rest ih =>
    simp only [categorize_file_changes]
    rcases List.mem_cons.mp hc with rfl | hmem
    · simp [h1, h2, h3, h4, h5]
    · split_ifs <;> simp [ih hmem]

/-- C7: the classifier is total — version-bump inference always returns
one of `major`/`minor`/`patch` for every input (empty lists and absent
fields included), and a path matching no category rule falls into the
`other` bucket rather than being dropped. -/
theorem classifier_total (fc : List FileChangeRec) (ci : List CommitRec) :
    (generate_version_suggestion fc ci = "major" ∨
     generate_version_suggestion fc ci = "minor" ∨
     generate_version_suggestion fc ci = "patch") ∧
    ∀ c ∈ fc,
      testsCond (pathOf c) = false → docsCond (pathOf c) = false →
      depsCond (pathOf c) = false → configCond (pathOf c) = false →
      sourceCond (pathOf c) = false →
      pathOf c ∈ (categorize_file_changes fc).other := by
  constructor
  · simp only [generate_version_suggestion]
    split_ifs <;> simp
  · intro c hc h1 h2 h3 h4 h5
    exact mem_other_of_unmatched fc c hc h1 h2 h3 h4 h5

/-- C7 witness: on the one-element input `x` (a path matching no rule)
with no commits, the bump is one of the three values and the path is in
the `other` bucket. -/
theorem classifier_total_witness :
    (generate_version_suggestion [⟨some (sl "x")⟩] [] = "major" ∨
     generate_version_suggestion [⟨some (sl "x")⟩] [] = "minor" ∨
     generate_version_suggestion [⟨some (sl "x")⟩] [] = "patch") ∧
    sl "x" ∈ (categorize_file_changes [⟨some (sl "x")⟩]).other :=
  ⟨(classifier_total [⟨some (sl "x")⟩] []).1,
   (classifier_total [⟨some (sl "x")⟩] []).2 ⟨some (sl "x")⟩ (by decide)
     (by decide) (by decide) (by decide) (by decide) (by decide)⟩

/-- One file entry of the hosting API's comparison result, as read by
`GitHubMCPServer.get_commit_diff` (`file.patch` may be `None`, e.g. for
binary files). -/
structure ComparisonFile where
  filename : String
  additions : Nat
  deletions : Nat
  patch : Option String
  status : String

/-- `CommitDiff` from `config.py`: the per-file record built by
`get_commit_diff`. -/
structure CommitDiff where
  file_path : String
  additions : Nat
  deletions : Nat
  changes : String
  status : String

/-- `GitHubMCPServer.get_commit_diff` from `mcp_server.py`, applied to the
files of a comparison: each file maps to a `CommitDiff`, with
`changes = file.patch or ""`. -/
def get_commit_diff (files : List ComparisonFile) : List CommitDiff :=
  files.map fun f => ⟨f.filename, f.additions, f.deletions, f.patch.getD "", f.status⟩

/-- One commit record of `get_commits_info` (only its presence matters to
the analysis totals; the summary reports the count). -/
structure CommitInfoRec where
  sha : String
  message : String
  author : String
  date : String
  url : String

/-- `AnalysisResult` from `config.py`. -/
structure AnalysisResult where
  repository : String
  from_commit : String
  to_commit : String
  total_files_changed : Nat
  total_additions : Nat
  total_deletions : Nat
  file_changes : List CommitDiff
  summary : String

/-- `GitHubMCPServer.analyze_repository_changes` from `mcp_server.py`,
after the repository has been resolved and the comparison fetched: builds
`file_changes` via `get_commit_diff`, computes the three totals, and
composes the fixed-template summary (first 8 characters of each revision
pointer, display only). -/
def analyze_repository_changes (repo_name from_commit to_commit : String)
    (files : List ComparisonFile) (commits_info : List CommitInfoRec) :
    AnalysisResult :=
  let file_changes := get_commit_diff files
  let total_files_changed := file_changes.length
  let total_additions := (file_changes.map fun c => c.additions).sum
  let total_deletions := (file_changes.map fun c => c.deletions).sum
  let summary :=
    "Analysis of " ++ repo_name ++ " from " ++ from_commit.take 8 ++
    " to " ++ to_commit.take 8 ++ ":\n" ++
    "- " ++ toString total_files_changed ++ " files changed\n" ++
    "- " ++ toString total_additions ++ " additions, " ++
    toString total_deletions ++ " deletions\n" ++
    "- " ++ toString commits_info.length ++ " commits analyzed"
  ⟨repo_name, from_commit, to_commit, total_files_changed, total_additions,
   total_deletions, file_changes, summary⟩

/-- C5: every constructed analysis result satisfies
`totalAdditions = sum of fileChanges additions`,
`totalDeletions = sum of fileChanges deletions`, and
`totalFilesChanged = length of fileChanges`. -/
theorem analyze_repository_changes_totals (repo_name from_commit to_commit : String)
    (files : List ComparisonFile) (commits_info : List CommitInfoRec) :
    (analyze_repository_changes repo_name from_commit to_commit files
        commits_info).total_additions =
      ((analyze_repository_changes repo_name from_commit to_commit files
        commits_info).file_changes.map fun c => c.additions).sum ∧
    (analyze_repository_changes repo_name from_commit to_commit files
        commits_info).total_deletions =
      ((analyze_repository_changes repo_name from_commit to_commit files
        commits_info).file_changes.map fun c => c.deletions).sum ∧
    (analyze_repository_changes repo_name from_commit to_commit files
        commits_info).total_files_changed =
      (analyze_repository_changes repo_name from_commit to_commit files
        commits_info).file_changes.length :=
  ⟨rfl, rfl, rfl⟩

/-- `GitHubRequest` from `config.py`. -/
structure GitHubRequest where
  repository : String
  from_commit : String
  to_commit : String
  recipient_email : String

/-- The dict returned by `GitHubReleaseLogCrew.process_request` in
`crew.py` (the success dict has a `result` key, the error dict does
not — modelled as an `Option`). -/
structure ProcessOutcome where
  status : String
  message : String
  repository : String
  from_commit : String
  to_commit : String
  recipient_email : String
  result : Option String
deriving DecidableEq

/-- `GitHubReleaseLogCrew.process_request` from `crew.py`.  The whole
`try` body (task construction and `crew.kickoff()`) is modelled by
`crewRun`: `Except.ok` is a completed run, `Except.error e` is any
exception `e = str(exc)` raised by any stage; the `except` block builds
the error dict from `str(e)` and the request's fields. -/
def process_request (request : GitHubRequest) (crewRun : Except String String) :
    ProcessOutcome :=
  match crewRun with
  | Except.ok result =>
    ⟨"success", "Release log generated and email sent successfully",
     request.repository, request.from_commit, request.to_commit,
     request.recipient_email, some result⟩
  | Except.error e =>
    ⟨"error", "Error processing request: " ++ e,
     request.repository, request.from_commit, request.to_commit,
     request.recipient_email, none⟩

/-- C1 counterexample: the failure outcome's message is not the original
error message itself — the code prefixes it with
`"Error processing request: "`. -/
theorem process_request_message_cex :
    (process_request ⟨"octo/demo", "a1b2", "c3d4", "dev@example.com"⟩
      (Except.error "boom")).message ≠ "boom" := by decide

/-- C1 (amended): on any stage error the orchestrator produces the error
outcome (status `"error"`, never `"success"`) carrying the request's
repository, both revision pointers and notify address unchanged, and a
message that is exactly `"Error processing request: "` followed by the
original error message — the original text is embedded verbatim as a
suffix, not reinterpreted. -/
theorem process_request_failure (request : GitHubRequest) (e : String) :
    (process_request request (Except.error e)).status = "error" ∧
    (process_request request (Except.error e)).status ≠ "success" ∧
    (process_request request (Except.error e)).repository = request.repository ∧
    (process_request request (Except.error e)).from_commit = request.from_commit ∧
    (process_request request (Except.error e)).to_commit = request.to_commit ∧
    (process_request request (Except.error e)).recipient_email = request.recipient_email ∧
    (process_request request (Except.error e)).message =
      "Error processing request: " ++ e :=
  ⟨rfl, by
      intro h
      have h' : ("error" : String) = "success" := h
      exact absurd h' (by decide),
    rfl, rfl, rfl, rfl, rfl⟩

/-- C1 witness: the amended theorem applied at a concrete request and a
concrete stage error. -/
theorem process_request_failure_witness :
    (process_request ⟨"octo/demo", "a1b2", "c3d4", "dev@example.com"⟩
        (Except.error "boom")).status = "error" ∧
    (process_request ⟨"octo/demo", "a1b2", "c3d4", "dev@example.com"⟩
        (Except.error "boom")).status ≠ "success" ∧
    (process_request ⟨"octo/demo", "a1b2", "c3d4", "dev@example.com"⟩
        (Except.error "boom")).repository = "octo/demo" ∧
    (process_request ⟨"octo/demo", "a1b2", "c3d4", "dev@example.com"⟩
        (Except.error "boom")).from_commit = "a1b2" ∧
    (process_request ⟨"octo/demo", "a1b2", "c3d4", "dev@example.com"⟩
        (Except.error "boom")).to_commit = "c3d4" ∧
    (process_request ⟨"octo/demo", "a1b2", "c3d4", "dev@example.com"⟩
        (Except.error "boom")).recipient_email = "dev@example.com" ∧
    (process_request ⟨"octo/demo", "a1b2", "c3d4", "dev@example.com"⟩
        (Except.error "boom")).message = "Error processing request: boom" :=
  process_request_failure ⟨"octo/demo", "a1b2", "c3d4", "dev@example.com"⟩ "boom"

/-- `'https://github.com/'`, the URL head stripped by
`GitHubUtils.parse_repository_url`. -/
def httpsHead : List Char :=
  ['h', 't', 't', 'p', 's', ':', '/', '/', 'g', 'i', 't', 'h', 'u', 'b',
   '.', 'c', 'o', 'm', '/']

/-- `'git@github.com:'`, the SSH head stripped by
`parse_repository_url`. -/
def sshHead : List Char :=
  ['g', 'i', 't', '@', 'g', 'i', 't', 'h', 'u', 'b', '.', 'c', 'o', 'm',
   ':']

/-- `'.git'`, removed (everywhere, by `str.replace`) in the SSH branch of
`parse_repository_url`. -/
def dotGit : List Char := ['.', 'g', 'i', 't']

/-- The closing step of `parse_repository_url`: `if '/' in repo_input:
parts = repo_input.split('/'); if len(parts) >= 2: return parts[0],
parts[1]`, and otherwise `raise ValueError` (here `none`). -/
def splitOwnerRepo (r : List Char) : Option (List Char × List Char) :=
  if ('/' : Char) ∈ r then
    match pySplitChar '/' r with
    | p0 :: p1 :: _ => some (p0, p1)
    | _ => none
  else none

/-- `GitHubUtils.parse_repository_url` from `utils.py`: strip trailing
slashes, strip the `https` head (by global `replace`) when present, else
strip the SSH head and every `'.git'` occurrence (both by global
`replace`) when present, then split on `'/'`. -/
def parse_repository_url (repo_input : List Char) :
    Option (List Char × List Char) :=
  let r0 := pyRstrip '/' repo_input
  if httpsHead.isPrefixOf r0 then
    splitOwnerRepo (pyReplaceDel httpsHead r0)
  else if sshHead.isPrefixOf r0 then
    splitOwnerRepo (pyReplaceDel dotGit (pyReplaceDel sshHead r0))
  else
    splitOwnerRepo r0

/-- Boolean prefix test versus the `<+:` order. -/
theorem isPre_eq (p l : List Char) : p.isPrefixOf l = true ↔ p <+: l :=
  List.isPrefixOf_iff_prefix

/-- A prefix of `l ++ t` no longer than `l` is a prefix of `l`. -/
theorem isPre_of_append_of_le (p l t : List Char) (h : p <+: l ++ t)
    (hlen : p.length ≤ l.length) : p <+: l := by
  induction l generalizing p with
  | nil =>
    have : p = [] := List.eq_nil_of_length_eq_zero (by simpa using hlen)
    subst this
    exact List.nil_prefix
  | cons x l' ih =>
    cases p with
    | nil => exact List.nil_prefix
    | cons a p' =>
      obtain ⟨rfl, hp⟩ := List.cons_prefix_cons.mp h
      exact List.cons_prefix_cons.mpr ⟨rfl, ih p' hp (by simpa using hlen)⟩

/-- A prefix of `l ++ sep :: t` is a prefix of `l`, unless it reaches the
separator and hence contains it. -/
theorem isPre_append_or_mem (p l t : List Char) (sep : Char)
    (h : p <+: l ++ sep :: t) : p <+: l ∨ sep ∈ p := by
  induction l generalizing p with
  | nil =>
    cases p with
    | nil => exact Or.inl List.nil_prefix
    | cons a p' =>
      obtain ⟨rfl, -⟩ := List.cons_prefix_cons.mp h
      exact Or.inr (List.mem_cons_self _ _)
  | cons x l' ih =>
    cases p with
    | nil => exact Or.inl List.nil_prefix
    | cons a p' =>
      obtain ⟨rfl, hp⟩ := List.cons_prefix_cons.mp h
      rcases ih p' hp with h1 | h2
      · exact Or.inl (List.cons_prefix_cons.mpr ⟨rfl, h1⟩)
      · exact Or.inr (List.mem_cons_of_mem _ h2)

/-- Every character of a pattern occurring somewhere in `s` is a
character of `s`. -/
theorem mem_of_hasOccur (pat s : List Char) (h : hasOccur pat s = true)
    (c : Char) (hc : c ∈ pat) : c ∈ s := by
  induction s with
  | nil =>
    have : pat = [] := List.prefix_nil.mp ((isPre_eq _ _).mp h)
    subst this
    cases hc
  | cons d ds ih =>
    simp only [hasOccur, Bool.or_eq_true] at h
    rcases h with h | h
    · exact ((isPre_eq _ _).mp h).subset hc
    · exact List.mem_cons_of_mem _ (ih h)

/-- A pattern containing a character absent from `s` occurs nowhere
in `s`. -/
theorem hasOccur_eq_false_of_not_mem (pat s : List Char) (c : Char)
    (hc : c ∈ pat) (hs : c ∉ s) : hasOccur pat s = false := by
  rcases h : hasOccur pat s with - | -
  · rfl
  · exact absurd (mem_of_hasOccur pat s h c hc) hs

/-- A pattern that occurs nowhere in `s` is untouched by the deletion
scan, whatever the fuel. -/
theorem replaceDelAux_of_not_occur (pat : List Char) (fuel : Nat)
    (s : List Char) (h : hasOccur pat s = false) :
    pyReplaceDelAux pat fuel s = s := by
  induction fuel generalizing s with
  | zero => cases s <;> rfl
  | succ f ih =>
    cases s with
    | nil => rfl
    | cons c cs =>
      simp only [hasOccur, Bool.or_eq_false_iff] at h
      simp only [pyReplaceDelAux]
      rw [if_neg, ih cs h.2]
      rintro ⟨-, hp⟩
      rw [h.1] at hp
      cases hp

/-- Deleting a non-empty pattern from a string that starts with it and
otherwise avoids it strips exactly the head occurrence. -/
theorem replaceDelAux_head (pat rest : List Char) (hne : pat ≠ [])
    (hocc : hasOccur pat rest = false) (fuel : Nat) :
    pyReplaceDelAux pat (fuel + 1) (pat ++ rest) = rest := by
  obtain ⟨a, p', rfl⟩ := List.exists_cons_of_ne_nil hne
  have hpre : (a :: p').isPrefixOf (a :: (p' ++ rest)) = true := by
    rw [isPre_eq]
    exact List.prefix_append (a :: p') rest
  show pyReplaceDelAux (a :: p') (fuel + 1) (a :: (p' ++ rest)) = rest
  simp only [pyReplaceDelAux]
  rw [if_pos ⟨List.cons_ne_nil a p', hpre⟩]
  have hdrop : List.drop (a :: p').length (a :: (p' ++ rest)) = rest :=
    List.drop_left (a :: p') rest
  rw [hdrop]
  exact replaceDelAux_of_not_occur _ _ _ hocc

/-- `pyReplaceDel` on `pat ++ rest`: strip the head occurrence, leave the
clean remainder intact. -/
theorem replaceDel_head (pat rest : List Char) (hne : pat ≠ [])
    (hocc : hasOccur pat rest = false) :
    pyReplaceDel pat (pat ++ rest) = rest := by
  obtain ⟨a, p', rfl⟩ := List.exists_cons_of_ne_nil hne
  show pyReplaceDelAux (a :: p') (a :: (p' ++ rest)).length (a :: (p' ++ rest)) = rest
  rw [List.length_cons]
  exact replaceDelAux_head (a :: p') rest (List.cons_ne_nil a p') hocc _

/-- No occurrence of a separator-free pattern can ever cross the
separator of `a ++ sep :: b`. -/
theorem hasOccur_append_sep (pat a b : List Char) (sep : Char)
    (hsep : sep ∉ pat) (ha : hasOccur pat a = false)
    (hb : hasOccur pat b = false) :
    hasOccur pat (a ++ sep :: b) = false := by
  have hbne : pat ≠ [] := by
    rintro rfl
    cases b with
    | nil => cases hb
    | cons x xs => simp [hasOccur, List.isPrefixOf] at hb
  induction a with
  | nil =>
    simp only [List.nil_append, hasOccur, Bool.or_eq_false_iff]
    refine ⟨?_, hb⟩
    rcases hp : pat.isPrefixOf (sep :: b) with - | -
    · rfl
    · rcases isPre_append_or_mem pat [] b sep ((isPre_eq _ _).mp hp) with h | h
      · exact absurd (List.prefix_nil.mp h) hbne
      · exact absurd h hsep
  | cons x a' ih =>
    simp only [hasOccur, Bool.or_eq_false_iff] at ha
    simp only [List.cons_append, hasOccur, Bool.or_eq_false_iff]
    refine ⟨?_, ih ha.2⟩
    rcases hp : pat.isPrefixOf (x :: (a' ++ sep :: b)) with - | -
    · rfl
    · have hp' : pat <+: (x :: a') ++ sep :: b := by
        rw [List.cons_append]
        exact (isPre_eq _ _).mp hp
      rcases isPre_append_or_mem pat (x :: a') b sep hp' with h | h
      · rw [← isPre_eq] at h
        rw [ha.1] at h
        cases h
      · exact absurd h hsep

/-- `'.git'` cannot start at any of the last three positions before an
appended `'.git'`: a crossing match would force `'.'` to equal `'g'`,
`'i'` or `'t'`.  Hence on `s ++ '.git'` with `'.git'` absent from `s`,
the deletion scan removes exactly the final `'.git'`. -/
theorem replaceDelAux_dotGit_tail (s : List Char)
    (hocc : hasOccur dotGit s = false) :
    ∀ fuel, s.length + 4 ≤ fuel → pyReplaceDelAux dotGit fuel (s ++ dotGit) = s := by
  induction s with
  | nil =>
    intro fuel hf
    obtain ⟨f, rfl⟩ : ∃ f, fuel = f + 1 := ⟨fuel - 1, by omega⟩
    show pyReplaceDelAux dotGit (f + 1) ('.' :: ['g', 'i', 't']) = []
    simp only [pyReplaceDelAux]
    rw [if_pos ⟨by decide, by decide⟩]
    have hdrop : List.drop dotGit.length ('.' :: ['g', 'i', 't']) = [] := by decide
    rw [hdrop]
    cases f <;> rfl
  | cons c cs ih =>
    intro fuel hf
    obtain ⟨f, rfl⟩ : ∃ f, fuel = f + 1 := ⟨fuel - 1, by omega⟩
    simp only [hasOccur, Bool.or_eq_false_iff] at hocc
    have hnp : dotGit.isPrefixOf (c :: (cs ++ dotGit)) = false := by
      rcases cs with - | ⟨b1, - | ⟨b2, - | ⟨b3, cs'⟩⟩⟩
      · have h2 : (('g' : Char) == '.') = false := by decide
        simp [dotGit, List.isPrefixOf, h2]
      · have h3 : (('i' : Char) == '.') = false := by decide
        simp [dotGit, List.isPrefixOf, h3]
      · have h4 : (('t' : Char) == '.') = false := by decide
        simp [dotGit, List.isPrefixOf, h4]
      · rcases hp : dotGit.isPrefixOf (c :: (b1 :: b2 :: b3 :: cs' ++ dotGit)) with - | -
        · rfl
        · have hp' : dotGit <+: (c :: b1 :: b2 :: b3 :: cs') ++ dotGit := by
            simpa using (isPre_eq _ _).mp hp
          have hshort : dotGit <+: c :: b1 :: b2 :: b3 :: cs' :=
            isPre_of_append_of_le dotGit _ dotGit hp' (by simp [dotGit])
          rw [← isPre_eq] at hshort
          rw [hocc.1] at hshort
          cases hshort
    show pyReplaceDelAux dotGit (f + 1) (c :: (cs ++ dotGit)) = c :: cs
    simp only [pyReplaceDelAux]
    rw [if_neg, ih hocc.2 f (by simp only [List.length_cons] at hf; omega)]
    rintro ⟨-, hp⟩
    rw [hnp] at hp
    cases hp

/-- `pyReplaceDel` of `'.git'` on `s ++ '.git'` with `'.git'` absent
from `s` returns `s`. -/
theorem replaceDel_dotGit (s : List Char) (hocc : hasOccur dotGit s = false) :
    pyReplaceDel dotGit (s ++ dotGit) = s := by
  unfold pyReplaceDel
  exact replaceDelAux_dotGit_tail s hocc _ (by simp [dotGit])

/-- `rstrip('/')` leaves a string whose last character is not `'/'`
unchanged. -/
theorem pyRstrip_eq_self (s : List Char)
    (h : ∀ x, s.getLast? = some x → ¬ x = '/') :
    pyRstrip '/' s = s := by
  unfold pyRstrip
  cases hrev : s.reverse with
  | nil =>
    have hs : s = [] := by
      have := congrArg List.reverse hrev
      simpa using this
    simp [hs]
  | cons y ys =>
    have hy : s.getLast? = some y := by
      rw [← List.head?_reverse, hrev]
      rfl
    rw [List.dropWhile_cons, if_neg (by simpa using h y hy), ← hrev,
      List.reverse_reverse]

/-- `rstrip('/')` absorbs a trailing slash. -/
theorem pyRstrip_append_slash (s : List Char) :
    pyRstrip '/' (s ++ ['/']) = pyRstrip '/' s := by
  unfold pyRstrip
  rw [List.reverse_append]
  simp [List.dropWhile_cons]

/-- Splitting a separator-free string yields the one-piece list. -/
theorem pySplit_no_sep (b : List Char) (h : ('/' : Char) ∉ b) :
    pySplitChar '/' b = [b] := by
  induction b with
  | nil => rfl
  | cons c cs ih =>
    have hc : ¬ c = '/' := fun hcc => h (hcc ▸ List.mem_cons_self c cs)
    have ihh := ih (fun hm => h (List.mem_cons_of_mem c hm))
    simp only [pySplitChar, if_neg hc, ihh]

/-- Splitting `a ++ '/' :: b` with `a` separator-free peels off `a` as
the first piece. -/
theorem pySplit_append (a b : List Char) (ha : ('/' : Char) ∉ a) :
    pySplitChar '/' (a ++ '/' :: b) = a :: pySplitChar '/' b := by
  induction a with
  | nil => simp [pySplitChar]
  | cons x a' ih =>
    have hx : ¬ x = '/' := fun hxx => ha (hxx ▸ List.mem_cons_self x a')
    have ihh := ih (fun hm => ha (List.mem_cons_of_mem x hm))
    simp only [List.cons_append, pySplitChar, if_neg hx, List.append_eq, ihh]

/-- The closing split-and-project step maps `owner ++ '/' :: name` with
slash-free components to the pair `(owner, name)`. -/
theorem splitOwnerRepo_pair (owner name : List Char)
    (ho : ('/' : Char) ∉ owner) (hn : ('/' : Char) ∉ name) :
    splitOwnerRepo (owner ++ '/' :: name) = some (owner, name) := by
  unfold splitOwnerRepo
  rw [if_pos (List.mem_append.mpr (Or.inr (List.mem_cons_self _ _))),
    pySplit_append owner name ho, pySplit_no_sep name hn]

/-- `getLast?` looks only at a non-empty right part. -/
theorem getLast?_append_of_ne_nil (a b : List Char) (hb : b ≠ []) :
    (a ++ b).getLast? = b.getLast? := by
  rcases List.eq_nil_or_concat b with rfl | ⟨L, x, rfl⟩
  · exact absurd rfl hb
  · rw [List.concat_eq_append, ← List.append_assoc, List.getLast?_concat,
      List.getLast?_concat]

/-- A pattern containing a character absent from `s` is not a prefix
of `s`. -/
theorem isPre_eq_false_of_mem_not_mem (p s : List Char) (c : Char)
    (hc : c ∈ p) (hs : c ∉ s) : p.isPrefixOf s = false := by
  rcases h : p.isPrefixOf s with - | -
  · rfl
  · exact absurd (((isPre_eq _ _).mp h).subset hc) hs

/-- A well-formed repository path segment: non-empty, free of `'/'` and
`':'`, and not containing `'.git'` as a substring. -/
def goodSeg (s : List Char) : Prop :=
  s ≠ [] ∧ ('/' : Char) ∉ s ∧ (':' : Char) ∉ s ∧ hasOccur dotGit s = false

/-- C2 (amended): for well-formed `owner` and `name` segments (non-empty,
no `'/'` or `':'`, no `'.git'` substring), the four inputs `owner/name`,
`https://github.com/owner/name`, `https://github.com/owner/name/` and
`git@github.com:owner/name.git` all normalize to the identical pair
`(owner, name)`. -/
theorem parse_repository_url_normalizes (owner name : List Char)
    (ho : goodSeg owner) (hn : goodSeg name) :
    parse_repository_url (owner ++ '/' :: name) = some (owner, name) ∧
    parse_repository_url (httpsHead ++ (owner ++ '/' :: name)) =
      some (owner, name) ∧
    parse_repository_url ((httpsHead ++ (owner ++ '/' :: name)) ++ ['/']) =
      some (owner, name) ∧
    parse_repository_url (sshHead ++ ((owner ++ '/' :: name) ++ dotGit)) =
      some (owner, name) := by
  obtain ⟨hone, hoslash, hocolon, hogit⟩ := ho
  obtain ⟨hnne, hnslash, hncolon, hngit⟩ := hn
  -- the last character of `name`, which is the last character of the bare
  -- and of the two https inputs
  rcases List.eq_nil_or_concat name with rfl | ⟨L, nl, hname⟩
  · exact absurd rfl hnne
  rw [List.concat_eq_append] at hname
  have hnlast : name.getLast? = some nl := by
    rw [hname]
    exact List.getLast?_concat L
  have hnlmem : nl ∈ name := by
    rw [hname]
    exact List.mem_append.mpr (Or.inr (List.mem_cons_self _ _))
  have hlast_ne : ∀ x, name.getLast? = some x → ¬ x = '/' := by
    intro x hx
    rw [hnlast] at hx
    cases hx
    exact fun h => hnslash (h ▸ hnlmem)
  have hbne : owner ++ '/' :: name ≠ [] := by simp
  have hlast_bare : (owner ++ '/' :: name).getLast? = name.getLast? := by
    rw [getLast?_append_of_ne_nil owner _ (List.cons_ne_nil _ _),
      show ('/' :: name) = ['/'] ++ name from rfl,
      getLast?_append_of_ne_nil _ _ hnne]
  -- `':'` does not occur in the bare form, so neither stripping branch
  -- can fire on it
  have hcol_bare : (':' : Char) ∉ owner ++ '/' :: name := by
    rw [List.mem_append]
    rintro (h | h)
    · exact hocolon h
    · rcases List.mem_cons.mp h with h1 | h2
      · exact absurd h1 (by decide)
      · exact hncolon h2
  have hhttps_bare : httpsHead.isPrefixOf (owner ++ '/' :: name) = false :=
    isPre_eq_false_of_mem_not_mem _ _ ':' (by decide) hcol_bare
  have hssh_bare : sshHead.isPrefixOf (owner ++ '/' :: name) = false :=
    isPre_eq_false_of_mem_not_mem _ _ ':' (by decide) hcol_bare
  have hrs_bare : pyRstrip '/' (owner ++ '/' :: name) = owner ++ '/' :: name :=
    pyRstrip_eq_self _ (fun x hx => hlast_ne x (hlast_bare ▸ hx))
  have hpair := splitOwnerRepo_pair owner name hoslash hnslash
  refine ⟨?_, ?_, ?_, ?_⟩
  -- form 1: bare `owner/name`
  · simp only [parse_repository_url]
    rw [hrs_bare, if_neg (by rw [hhttps_bare]; exact Bool.false_ne_true),
      if_neg (by rw [hssh_bare]; exact Bool.false_ne_true)]
    exact hpair
  -- form 2: `https://github.com/owner/name`
  · have hrs2 : pyRstrip '/' (httpsHead ++ (owner ++ '/' :: name)) =
        httpsHead ++ (owner ++ '/' :: name) := by
      refine pyRstrip_eq_self _ (fun x hx => hlast_ne x ?_)
      rwa [getLast?_append_of_ne_nil _ _ hbne, hlast_bare] at hx
    simp only [parse_repository_url]
    rw [hrs2,
      if_pos ((isPre_eq _ _).mpr (List.prefix_append httpsHead _)),
      replaceDel_head httpsHead _ (by decide)
        (hasOccur_eq_false_of_not_mem _ _ ':' (by decide) hcol_bare)]
    exact hpair
  -- form 3: `https://github.com/owner/name/`
  · have hrs2 : pyRstrip '/' (httpsHead ++ (owner ++ '/' :: name)) =
        httpsHead ++ (owner ++ '/' :: name) := by
      refine pyRstrip_eq_self _ (fun x hx => hlast_ne x ?_)
      rwa [getLast?_append_of_ne_nil _ _ hbne, hlast_bare] at hx
    simp only [parse_repository_url]
    rw [pyRstrip_append_slash, hrs2,
      if_pos ((isPre_eq _ _).mpr (List.prefix_append httpsHead _)),
      replaceDel_head httpsHead _ (by decide)
        (hasOccur_eq_false_of_not_mem _ _ ':' (by decide) hcol_bare)]
    exact hpair
  -- form 4: `git@github.com:owner/name.git`
  · have hcol4 : (':' : Char) ∉ (owner ++ '/' :: name) ++ dotGit := by
      rw [List.mem_append]
      rintro (h | h)
      · exact hcol_bare h
      · exact absurd h (by decide)
    have hlast4 : (sshHead ++ ((owner ++ '/' :: name) ++ dotGit)).getLast? =
        some 't' := by
      rw [getLast?_append_of_ne_nil _ _ (by simp [dotGit]),
        getLast?_append_of_ne_nil _ _ (by decide)]
      decide
    have hrs4 : pyRstrip '/' (sshHead ++ ((owner ++ '/' :: name) ++ dotGit)) =
        sshHead ++ ((owner ++ '/' :: name) ++ dotGit) := by
      refine pyRstrip_eq_self _ (fun x hx => ?_)
      rw [hlast4] at hx
      cases hx
      decide
    have hhttps4 : httpsHead.isPrefixOf
        (sshHead ++ ((owner ++ '/' :: name) ++ dotGit)) = false := by
      have hng : (('h' : Char) == 'g') = false := by decide
      simp [httpsHead, sshHead, List.isPrefixOf, hng]
    have hgitfree : hasOccur dotGit (owner ++ '/' :: name) = false :=
      hasOccur_append_sep dotGit owner name '/' (by decide) hogit hngit
    simp only [parse_repository_url]
    rw [hrs4, if_neg (by rw [hhttps4]; exact Bool.false_ne_true),
      if_pos ((isPre_eq _ _).mpr (List.prefix_append sshHead _)),
      replaceDel_head sshHead _ (by decide)
        (hasOccur_eq_false_of_not_mem _ _ ':' (by decide) hcol4),
      replaceDel_dotGit _ hgitfree]
    exact hpair

/-- C2 counterexample: for the real-world repository name `x.github.io`
(which contains `'.git'` as a substring of `'.github.'`), the SSH-style
input does not normalize to the same pair as the bare input: the global
`.replace('.git', '')` of the SSH branch also deletes the `'.git'`
inside the name, yielding `xhub.io`. -/
theorem parse_repository_url_cex :
    parse_repository_url (sl "octo/x.github.io") =
      some (sl "octo", sl "x.github.io") ∧
    parse_repository_url (sl "git@github.com:octo/x.github.io.git") =
      some (sl "octo", sl "xhub.io") ∧
    parse_repository_url (sl "git@github.com:octo/x.github.io.git") ≠
      some (sl "octo", sl "x.github.io") := by decide

/-- C2 witness: the amended theorem applied to the concrete segments
`octo` and `demo`. -/
theorem parse_repository_url_normalizes_witness :
    parse_repository_url (sl "octo" ++ '/' :: sl "demo") =
      some (sl "octo", sl "demo") ∧
    parse_repository_url (httpsHead ++ (sl "octo" ++ '/' :: sl "demo")) =
      some (sl "octo", sl "demo") ∧
    parse_repository_url
        ((httpsHead ++ (sl "octo" ++ '/' :: sl "demo")) ++ ['/']) =
      some (sl "octo", sl "demo") ∧
    parse_repository_url
        (sshHead ++ ((sl "octo" ++ '/' :: sl "demo") ++ dotGit)) =
      some (sl "octo", sl "demo") :=
  parse_repository_url_normalizes (sl "octo") (sl "demo")
    ⟨by decide, by decide, by decide, by decide⟩
    ⟨by decide, by decide, by decide, by decide⟩
